import Mathlib

/-!
# Verification of the SuperBryn session/transcript engine

Shallow embedding of the frontend hooks (`useTranscript`, `useToolCalls`,
`useCallSummary`) and a spec-level model of the backend Booking Store and
Session Controller, together with proofs of the claimed properties.
-/

set_option maxHeartbeats 1000000

namespace SuperBryn

/-! ## Transcript assembler (`useTranscript` in the frontend source)

The hook keeps a `Map<string, TranscriptMessage>` keyed by segment id and a
visible `messages` array recomputed by a stable sort on timestamps whenever a
delivery effectively changed the map.  JS `Map` iterates in insertion order and
`set` on an existing key keeps its position, so we model the map as an
association list where `set` replaces in place or appends. -/

inductive Speaker where
  | user
  | agent
deriving DecidableEq, Repr

/-- `TranscriptMessage` from `types.ts`. Timestamps are JS numbers used only
via comparison and `||`, modelled as `Int`. -/
structure TranscriptMessage where
  id : String
  text : String
  speaker : Speaker
  isFinal : Bool
  timestamp : Int
deriving DecidableEq, Repr

/-- A livekit `TranscriptionSegment` as read by the hook: `text` and
`firstReceivedTime` may be absent (`undefined`). -/
structure TranscriptionSegment where
  id : String
  text : Option String
  final : Bool
  firstReceivedTime : Option Int
deriving DecidableEq, Repr

/-- JS `x || y` on an optional number: `undefined` and `0` are falsy. -/
def jsOrInt (x : Option Int) (y : Int) : Int :=
  match x with
  | none => y
  | some v => if v = 0 then y else v

/-- JS `x || y` on an optional string: `undefined` and `""` are falsy. -/
def jsOrStr (x : Option String) (y : String) : String :=
  match x with
  | none => y
  | some v => if v = "" then y else v

/-- JS `String.prototype.trim`: strip leading and trailing whitespace,
modelled on the character list. -/
def jsTrim (s : String) : String :=
  ⟨((s.data.dropWhile Char.isWhitespace).reverse.dropWhile
      Char.isWhitespace).reverse⟩

/-- The `!seg.text?.trim()` guard: true when text is absent, empty or
whitespace-only. -/
def segEmpty (s : TranscriptionSegment) : Bool :=
  jsTrim (s.text.getD "") == ""

/-- Insertion-order map lookup (`Map.get`). -/
def mapGet (m : List (String × TranscriptMessage)) (k : String) :
    Option TranscriptMessage :=
  match m with
  | [] => none
  | (k', v) :: rest => if k' = k then some v else mapGet rest k

/-- Insertion-order map update (`Map.set`): replaces in place when the key is
present, appends otherwise — exactly the JS `Map` iteration-order contract. -/
def mapSet (m : List (String × TranscriptMessage)) (k : String)
    (v : TranscriptMessage) : List (String × TranscriptMessage) :=
  match m with
  | [] => [(k, v)]
  | (k', v') :: rest =>
      if k' = k then (k, v) :: rest else (k', v') :: mapSet rest k v

/-- Values of the map in insertion order (`Array.from(map.values())`). -/
def mapValues (m : List (String × TranscriptMessage)) :
    List TranscriptMessage :=
  m.map Prod.snd

/-- Stable insertion of a message in front of the first element with a
timestamp ≥ its own. -/
def insertByTs (x : TranscriptMessage) :
    List TranscriptMessage → List TranscriptMessage
  | [] => [x]
  | y :: ys =>
      if y.timestamp < x.timestamp then y :: insertByTs x ys else x :: y :: ys

/-- Stable sort by timestamp.  JS `Array.prototype.sort` with comparator
`a.timestamp - b.timestamp` is stable (ES2019), and a stable sorted permutation
is unique, so insertion sort is an exact model. -/
def sortByTs : List TranscriptMessage → List TranscriptMessage
  | [] => []
  | x :: xs => insertByTs x (sortByTs xs)

/-- The hook's mutable state: the segment map and the visible message list. -/
structure TState where
  segMap : List (String × TranscriptMessage)
  messages : List TranscriptMessage
deriving DecidableEq, Repr

def initT : TState := ⟨[], []⟩

/-- The speaker computation: `participant?.identity ===
room.localParticipant.identity`; an absent participant compares unequal to the
local identity string. -/
def speakerOf (localId : String) (participant : Option String) : Speaker :=
  if participant = some localId then .user else .agent

/-- The update guard `!existing || existing.text !== seg.text ||
existing.isFinal !== seg.final`: true when the segment is new, the text
differs, or the finality flag differs (in either direction). -/
def updCond (existing : Option TranscriptMessage)
    (seg : TranscriptionSegment) : Bool :=
  match existing with
  | none => true
  | some e => !(e.text == seg.text.getD "") || !(e.isFinal == seg.final)

/-- The record stored for a segment on an effective update. -/
def mkStored (speaker : Speaker) (now : Int)
    (seg : TranscriptionSegment) : TranscriptMessage :=
  { id := seg.id
    text := seg.text.getD ""
    speaker := speaker
    isFinal := seg.final
    timestamp := jsOrInt seg.firstReceivedTime now }

/-- The per-segment body of the `for` loop: skip empty segments, then update
the map only when `updCond` holds.  Returns the updated map and the `changed`
flag. -/
def handleSeg (speaker : Speaker) (now : Int)
    (acc : List (String × TranscriptMessage) × Bool)
    (seg : TranscriptionSegment) :
    List (String × TranscriptMessage) × Bool :=
  if segEmpty seg then acc
  else if updCond (mapGet acc.1 seg.id) seg then
    (mapSet acc.1 seg.id (mkStored speaker now seg), true)
  else acc

/-- One `TranscriptionReceived` event: fold the segment batch through the map
and, when anything changed, recompute the sorted visible list. -/
def handleTranscription (localId : String) (st : TState)
    (participant : Option String) (segs : List TranscriptionSegment)
    (now : Int) : TState :=
  let speaker := speakerOf localId participant
  let r := segs.foldl (handleSeg speaker now) (st.segMap, false)
  if r.2 then ⟨r.1, sortByTs (mapValues r.1)⟩ else ⟨r.1, st.messages⟩

/-- A delivery: the participant it came from, the segment batch, and the
wall-clock time used by `Date.now()` fallbacks. -/
structure Delivery where
  participant : Option String
  segs : List TranscriptionSegment
  now : Int

/-- Run a sequence of deliveries from a state. -/
def runT (localId : String) (st : TState) (ds : List Delivery) : TState :=
  ds.foldl (fun s d => handleTranscription localId s d.participant d.segs d.now) st

/-! ## Data messages and their decoding (`useToolCalls`, `useCallSummary`)

Both hooks receive raw bytes on a named topic and run them through
`TextDecoder` + `JSON.parse`.  We model the decode result directly: either the
bytes are not valid JSON (`JSON.parse` throws, caught by the hooks), or they
decode to a JS value of which the hooks only ever read the fields below. -/

/-- `AppointmentAction` from `types.ts`.  `new_date?: string | null` and
`new_time?: string | null` collapse `undefined`/`null` into `Option`. -/
structure AppointmentAction where
  action : String
  date : String
  time : String
  new_date : Option String
  new_time : Option String
  details : String
deriving DecidableEq, Repr

/-- The fields of a decoded JSON value that the two data hooks read: `type`,
`tool`, `action`, `timestamp` (by `useToolCalls`) and the `CallSummary` shape
(by `useCallSummary`, which casts without validating, so every field is
optional here). -/
structure JsVal where
  type_ : Option String
  tool : Option String
  action : Option String
  timestamp : Option String
  summary : Option String
  appointments : Option (List AppointmentAction)
  phone_number : Option String
  user_name : Option String
deriving DecidableEq, Repr

/-- Result of `TextDecoder` + `JSON.parse` on a payload. -/
inductive Payload where
  | malformed
  | parsed (j : JsVal)
deriving DecidableEq, Repr

/-- A `RoomEvent.DataReceived` delivery as seen by the handlers: the topic and
the payload. -/
structure DataMessage where
  topic : Option String
  payload : Payload
deriving DecidableEq, Repr

/-- `ToolCallEvent` from `types.ts` (its `type` field is the constant
`"tool_call"`, omitted). -/
structure ToolCallEvent where
  id : String
  tool : String
  action : String
  timestamp : String
deriving DecidableEq, Repr

/-- State of `useToolCalls`: the `nextId` ref and the accumulated event
list. -/
structure ToolState where
  nextId : Nat
  events : List ToolCallEvent
deriving DecidableEq, Repr

def initTools : ToolState := ⟨0, []⟩

/-- The event built from a decoded payload: `tc-` id from the incremented
counter, and `data.tool || ""`, `data.action || ""`,
`data.timestamp || new Date().toISOString()`. -/
def mkToolEvent (now : String) (n : Nat) (j : JsVal) : ToolCallEvent :=
  { id := "tc-" ++ toString n
    tool := jsOrStr j.tool ""
    action := jsOrStr j.action ""
    timestamp := jsOrStr j.timestamp now }

/-- `handleData` of `useToolCalls` on one message.  `now` stands for
`new Date().toISOString()`. -/
def toolStep (now : String) (st : ToolState) (m : DataMessage) : ToolState :=
  if m.topic ≠ some "tool_call" then st
  else
    match m.payload with
    | .malformed => st
    | .parsed j =>
        if j.type_ ≠ some "tool_call" then st
        else
          { nextId := st.nextId + 1
            events := st.events ++ [mkToolEvent now (st.nextId + 1) j] }

def runTools (now : String) (st : ToolState) (msgs : List DataMessage) :
    ToolState :=
  msgs.foldl (toolStep now) st

/-- Whether a message takes the appending branch of `useToolCalls`. -/
def isToolCallMsg (m : DataMessage) : Bool :=
  decide (m.topic = some "tool_call") &&
    match m.payload with
    | .malformed => false
    | .parsed j => decide (j.type_ = some "tool_call")

/-- `handleData` of `useCallSummary` on one message: any JSON value arriving on
topic `"call_summary"` is stored as-is (`JSON.parse(text) as CallSummary` is a
cast, not a validation); parse failures are caught and change nothing. -/
def summaryStep (st : Option JsVal) (m : DataMessage) : Option JsVal :=
  if m.topic ≠ some "call_summary" then st
  else
    match m.payload with
    | .malformed => st
    | .parsed j => some j

def runSummary (st : Option JsVal) (msgs : List DataMessage) : Option JsVal :=
  msgs.foldl summaryStep st

abbrev tsLE (a b : TranscriptMessage) : Prop := a.timestamp ≤ b.timestamp

/-- The segment map is well formed: keys are distinct and every stored
message's `id` field equals its key. -/
def MapWF (m : List (String × TranscriptMessage)) : Prop :=
  (m.map Prod.fst).Nodup ∧ ∀ p ∈ m, (p.2).id = p.1

/-- The hook's invariant: the map is well formed and the visible message list
is exactly the timestamp-sorted values of the map.  (Initially both are empty,
and `sortByTs [] = []`.) -/
def TInv (st : TState) : Prop :=
  MapWF st.segMap ∧ st.messages = sortByTs (mapValues st.segMap)

/-! ## Booking Store (spec-modelled)

The Booking Store itself is backend code that is not part of the source
tree here (only the spec describes it), so it is modelled from §4.2/§5 of the
spec: slots carry a booked flag, appointments are append-only records whose
status is mutated in place, and each operation is a single atomic step —
the store serializes conflicting operations, so an interleaving of concurrent
sessions is a sequence of atomic operations. -/

/-- Modelled from the spec: a bookable (date, time) pair with a boolean
booked flag (§3 Slot); the engine only toggles the flag and never invents new
slots. -/
structure Slot where
  date : String
  time : String
  booked : Bool
deriving DecidableEq, Repr

/-- Modelled from the spec: appointment status (§3), `booked`, `cancelled` or
`modified-away`. -/
inductive ApptStatus where
  | booked
  | cancelled
  | modifiedAway
deriving DecidableEq, Repr

/-- Modelled from the spec: an appointment record (owning user by phone,
date, time, status) (§3). -/
structure Appointment where
  phone : String
  date : String
  time : String
  status : ApptStatus
deriving DecidableEq, Repr

/-- Modelled from the spec: the Booking Store's authoritative state (§4.2):
the slot table and the append-only appointment list (an appointment is
referenced by its index of creation). -/
structure Store where
  slots : List Slot
  appts : List Appointment
deriving DecidableEq, Repr

inductive BookRes where
  | ok
  | conflict
  | notFound
deriving DecidableEq, Repr

def findSlot (s : List Slot) (d t : String) : Option Slot :=
  s.find? (fun sl => sl.date == d && sl.time == t)

/-- Toggle the booked flag of the slot with the given key. -/
def setSlot (s : List Slot) (d t : String) (b : Bool) : List Slot :=
  s.map (fun sl =>
    if sl.date == d && sl.time == t then { sl with booked := b } else sl)

/-- Modelled from the spec: `book` (§4.2) atomically checks the target slot
is free and, if so, flips it to booked and creates the appointment record in
one indivisible step; otherwise it fails with `Conflict` and no state
changes. -/
def book (st : Store) (phone d t : String) : Store × BookRes :=
  match findSlot st.slots d t with
  | none => (st, .conflict)
  | some sl =>
      if sl.booked then (st, .conflict)
      else
        ({ slots := setSlot st.slots d t true
           appts := st.appts ++ [⟨phone, d, t, .booked⟩] }, .ok)

/-- Modelled from the spec: `cancel` (§4.2) frees the slot and marks the
appointment `cancelled`; cancelling an already-cancelled or nonexistent
appointment fails with `NotFound`. -/
def cancel (st : Store) (i : Nat) : Store × BookRes :=
  match st.appts[i]? with
  | none => (st, .notFound)
  | some a =>
      if a.status = .booked then
        ({ slots := setSlot st.slots a.date a.time false
           appts := st.appts.set i { a with status := .cancelled } }, .ok)
      else (st, .notFound)

/-- Modelled from the spec: `modify` (§4.2) verifies the new slot's
availability before releasing the old slot; if the new slot is unavailable it
fails with `Conflict` and the original appointment remains intact; on success
the claim moves to the new slot, the old record becomes `modified-away`, and
a new `booked` record is appended, in one atomic unit. -/
def modify (st : Store) (i : Nat) (d t : String) : Store × BookRes :=
  match st.appts[i]? with
  | none => (st, .notFound)
  | some a =>
      if a.status = .booked then
        match findSlot st.slots d t with
        | none => (st, .conflict)
        | some sl =>
            if sl.booked then (st, .conflict)
            else
              ({ slots := setSlot (setSlot st.slots d t true)
                   a.date a.time false
                 appts := (st.appts.set i { a with status := .modifiedAway })
                   ++ [⟨a.phone, d, t, .booked⟩] }, .ok)
      else (st, .notFound)

/-- One operation issued by some session; which session issued it is
irrelevant to the store invariant, and atomicity (§5) makes an arbitrary
interleaving a sequence of these. -/
inductive BookOp where
  | book (phone d t : String)
  | cancel (i : Nat)
  | modify (i : Nat) (d t : String)
deriving DecidableEq, Repr

def applyOp (st : Store) (op : BookOp) : Store × BookRes :=
  match op with
  | .book phone d t => book st phone d t
  | .cancel i => cancel st i
  | .modify i d t => modify st i d t

def applyOps (st : Store) (ops : List BookOp) : Store :=
  ops.foldl (fun s op => (applyOp s op).1) st

/-- The number of `booked`-status appointments referencing a slot key. -/
def countB (l : List Appointment) (d t : String) : Nat :=
  (l.filter (fun a =>
    a.status == ApptStatus.booked && a.date == d && a.time == t)).length

def slotKeys (s : List Slot) : List (String × String) :=
  s.map (fun sl => (sl.date, sl.time))

/-- The store invariant: slot keys are distinct, every booked appointment's
slot exists and is flagged booked, and at most one booked appointment
references any slot key. -/
def StoreWF (st : Store) : Prop :=
  (slotKeys st.slots).Nodup ∧
  (∀ a ∈ st.appts, a.status = .booked →
    ∃ sl ∈ st.slots, sl.date = a.date ∧ sl.time = a.time ∧ sl.booked = true) ∧
  (∀ d t, countB st.appts d t ≤ 1)

/-- The booked-appointment predicate for a slot key. -/
def isBookedAt (d t : String) (a : Appointment) : Bool :=
  a.status == ApptStatus.booked && a.date == d && a.time == t

/-! ## Session Controller and Summary Generator (spec-modelled)

The Session Controller, Summary Generator and Event Publisher are backend
code not present in this source tree; they are modelled from §3, §4.1, §4.5
and §4.6 of the spec.  The subscriber side (`useCallSummary`) is embedded
from the source above (`summaryStep`/`runSummary`). -/

/-- Modelled from the spec: the booking-action label set of a summary entry
(§3 CallSummary, §6). -/
inductive BookKind where
  | booked
  | cancelled
  | modified
deriving DecidableEq, Repr

def bookKindLabel : BookKind → String
  | .booked => "booked"
  | .cancelled => "cancelled"
  | .modified => "modified"

/-- Modelled from the spec: a `ToolActionRecord` as the Summary Generator
reads it (§3, §4.5): booking-relevant records carry which booking action they
were; others carry `none`. -/
structure TRecord where
  kind : Option BookKind
  date : String
  time : String
  newDate : Option String
  newTime : Option String
  details : String
deriving DecidableEq, Repr

def recordAction (r : TRecord) (k : BookKind) : AppointmentAction :=
  { action := bookKindLabel k
    date := r.date
    time := r.time
    new_date := r.newDate
    new_time := r.newTime
    details := r.details }

/-- Modelled from the spec: identity and summary inputs fixed for a session
(identified phone/name, generation timestamp, narrative text). -/
structure SessionInfo where
  phone : Option String
  name : Option String
  ts : String
  narrative : String
deriving DecidableEq, Repr

/-- Modelled from the spec: the Summary Generator's payload (§4.5, §6):
narrative text, the ordered booking-action list mapped from the timeline,
the identified user's phone/name, and a generation timestamp. -/
def mkSummary (sess : SessionInfo) (timeline : List TRecord) : JsVal :=
  { type_ := some "call_summary"
    tool := none
    action := none
    timestamp := some sess.ts
    summary := some sess.narrative
    appointments := some
      (timeline.filterMap fun r => r.kind.map (recordAction r))
    phone_number := sess.phone
    user_name := sess.name }

inductive SState where
  | idle
  | identifying
  | active
  | summarizing
  | ended
deriving DecidableEq, Repr

inductive SAction where
  | begin
  | identify
  | runTool (r : TRecord)
  | endConv
  | summaryDone
  | transportLost
deriving DecidableEq, Repr

inductive SEvent where
  | toolCall (r : TRecord)
  | callSummary (j : JsVal)
deriving DecidableEq, Repr

/-- Modelled from the spec: one transition of the Session Controller state
machine (§4.1) together with what the Event Publisher emits on it (§4.5,
§4.6): tool execution is legal only in `Active` and publishes a tool-call
event; `end_conversation` is legal in `Active` or `Identifying`; the
`call_summary` event is published exactly at the `Summarizing → Ended`
transition; transport loss forces `Ended` from any live state, discarding
nothing but emitting nothing. -/
def sstep (sess : SessionInfo) (c : SState × List TRecord) (a : SAction) :
    Option ((SState × List TRecord) × List SEvent) :=
  match c.1, a with
  | .idle, .begin => some ((.identifying, c.2), [])
  | .identifying, .identify => some ((.active, c.2), [])
  | .active, .identify => some ((.active, c.2), [])
  | .active, .runTool r => some ((.active, c.2 ++ [r]), [.toolCall r])
  | .active, .endConv => some ((.summarizing, c.2), [])
  | .identifying, .endConv => some ((.summarizing, c.2), [])
  | .summarizing, .summaryDone =>
      some ((.ended, c.2), [.callSummary (mkSummary sess c.2)])
  | s, .transportLost =>
      if s = .ended then none else some ((.ended, c.2), [])
  | _, _ => none

/-- Run the machine over an action trace, collecting emitted events. -/
def runMachine (sess : SessionInfo) :
    SState × List TRecord → List SAction →
      Option ((SState × List TRecord) × List SEvent)
  | c, [] => some (c, [])
  | c, a :: τ =>
      (sstep sess c a).bind fun ce =>
        (runMachine sess ce.1 τ).map fun ce' => (ce'.1, ce.2 ++ ce'.2)

/-- How the publisher's events arrive at the frontend hooks: topic plus
decoded payload. -/
def eventMsg : SEvent → DataMessage
  | .toolCall r =>
      ⟨some "tool_call",
        .parsed ⟨some "tool_call", none, some r.details, none,
          none, none, none, none⟩⟩
  | .callSummary j => ⟨some "call_summary", .parsed j⟩

def isCS (e : SEvent) : Bool :=
  match e with
  | .callSummary _ => true
  | _ => false

/-- Number of call-summary events in a list. -/
def countCS (evs : List SEvent) : Nat := (evs.filter isCS).length

/-- The payload shape claimed for `call_summary`: a summary string, a
timestamp, and an appointments list whose entries all carry an action in
{booked, cancelled, modified}. -/
def WFSummary (j : JsVal) : Prop :=
  j.summary.isSome = true ∧ j.timestamp.isSome = true ∧
    ∃ l, j.appointments = some l ∧ ∀ e ∈ l,
      e.action = "booked" ∨ e.action = "cancelled" ∨ e.action = "modified"

/-- The `(tool, action, timestamp)` triple carried by an appended event. -/
def eventFields (e : ToolCallEvent) : String × String × String :=
  (e.tool, e.action, e.timestamp)

/-- The `(tool, action, timestamp)` triple a message's payload should yield
(defaults applied as the hook applies them). -/
def msgFields (now : String) (m : DataMessage) : String × String × String :=
  match m.payload with
  | .malformed => ("", "", now)
  | .parsed j => (jsOrStr j.tool "", jsOrStr j.action "", jsOrStr j.timestamp now)

/-! ## Properties of the stable sort -/

theorem insertByTs_perm (x : TranscriptMessage) (l : List TranscriptMessage) :
    (insertByTs x l).Perm (x :: l) := by
  induction l with
  | nil => simp [insertByTs]
  | cons y ys ih =>
      simp only [insertByTs]
      by_cases h : y.timestamp < x.timestamp
      · simp only [if_pos h]
        exact (ih.cons y).trans (List.Perm.swap x y ys)
      · simp [if_neg h]

theorem sortByTs_perm (l : List TranscriptMessage) : (sortByTs l).Perm l := by
  induction l with
  | nil => simp [sortByTs]
  | cons x xs ih =>
      exact (insertByTs_perm x (sortByTs xs)).trans (ih.cons x)

theorem mem_insertByTs {z x : TranscriptMessage} {l : List TranscriptMessage} :
    z ∈ insertByTs x l ↔ z = x ∨ z ∈ l := by
  rw [(insertByTs_perm x l).mem_iff]
  simp

theorem pairwise_insertByTs {x : TranscriptMessage}
    {l : List TranscriptMessage} (h : l.Pairwise tsLE) :
    (insertByTs x l).Pairwise tsLE := by
  induction l with
  | nil => simp [insertByTs, List.pairwise_singleton]
  | cons y ys ih =>
      rcases List.pairwise_cons.mp h with ⟨hy, hys⟩
      simp only [insertByTs]
      by_cases hlt : y.timestamp < x.timestamp
      · simp only [if_pos hlt]
        refine List.pairwise_cons.mpr ⟨?_, ih hys⟩
        intro z hz
        rcases mem_insertByTs.mp hz with rfl | hz
        · exact le_of_lt hlt
        · exact hy z hz
      · simp only [if_neg hlt]
        have hxy : x.timestamp ≤ y.timestamp := le_of_not_lt hlt
        refine List.pairwise_cons.mpr ⟨?_, h⟩
        intro z hz
        rcases List.mem_cons.mp hz with rfl | hz
        · exact hxy
        · exact le_trans hxy (hy z hz)

theorem sortByTs_sorted (l : List TranscriptMessage) :
    (sortByTs l).Pairwise tsLE := by
  induction l with
  | nil => simp [sortByTs]
  | cons x xs ih => exact pairwise_insertByTs ih

/-- Stability of the insertion step: restricted to any fixed timestamp `t`,
inserting `x` either prepends it (when `x` has timestamp `t`: every element it
jumped over has a strictly smaller timestamp) or leaves the restriction
untouched. -/
theorem insertByTs_filter (x : TranscriptMessage)
    (l : List TranscriptMessage) (t : Int) :
    (insertByTs x l).filter (fun m => m.timestamp == t) =
      if x.timestamp = t
      then x :: l.filter (fun m => m.timestamp == t)
      else l.filter (fun m => m.timestamp == t) := by
  induction l with
  | nil =>
      by_cases h : x.timestamp = t <;>
        simp [insertByTs, List.filter_cons, h]
  | cons y ys ih =>
      simp only [insertByTs]
      by_cases hlt : y.timestamp < x.timestamp
      · simp only [if_pos hlt]
        by_cases hx : x.timestamp = t
        · have hy : ¬ (y.timestamp = t) := by
            intro hyt; rw [hx] at hlt; omega
          simp [List.filter_cons, hy, hx, ih]
        · simp [List.filter_cons, hx, ih]
      · simp only [if_neg hlt]
        by_cases hx : x.timestamp = t <;>
          simp [List.filter_cons, hx]

/-- Stability of the sort: the subsequence of messages with any fixed
timestamp is exactly the corresponding subsequence of the input, i.e. equal
timestamps keep their input (insertion) order. -/
theorem sortByTs_filter (l : List TranscriptMessage) (t : Int) :
    (sortByTs l).filter (fun m => m.timestamp == t) =
      l.filter (fun m => m.timestamp == t) := by
  induction l with
  | nil => rfl
  | cons x xs ih =>
      simp only [sortByTs, insertByTs_filter, ih]
      by_cases hx : x.timestamp = t <;>
        simp [List.filter_cons, hx]

/-! ## Well-formedness of the segment map and the hook invariant -/

theorem mapGet_mapSet_self (m : List (String × TranscriptMessage))
    (k : String) (v : TranscriptMessage) :
    mapGet (mapSet m k v) k = some v := by
  induction m with
  | nil => simp [mapSet, mapGet]
  | cons p rest ih =>
      obtain ⟨k', v'⟩ := p
      by_cases h : k' = k <;> simp [mapSet, mapGet, h, ih]

theorem mem_mapSet {m : List (String × TranscriptMessage)}
    {k : String} {v : TranscriptMessage} {p : String × TranscriptMessage}
    (h : p ∈ mapSet m k v) : p = (k, v) ∨ p ∈ m := by
  induction m with
  | nil => simpa [mapSet] using h
  | cons q rest ih =>
      obtain ⟨k', v'⟩ := q
      by_cases hk : k' = k
      · simp only [mapSet, if_pos hk, List.mem_cons] at h
        rcases h with h | h
        · exact Or.inl h
        · exact Or.inr (by simp [h])
      · simp only [mapSet, if_neg hk, List.mem_cons] at h
        rcases h with h | h
        · exact Or.inr (by simp [h])
        · rcases ih h with h | h
          · exact Or.inl h
          · exact Or.inr (by simp [h])

theorem mem_keys_mapSet {m : List (String × TranscriptMessage)}
    {k a : String} {v : TranscriptMessage}
    (h : a ∈ (mapSet m k v).map Prod.fst) :
    a = k ∨ a ∈ m.map Prod.fst := by
  rcases List.mem_map.mp h with ⟨p, hp, rfl⟩
  rcases mem_mapSet hp with rfl | hp
  · exact Or.inl rfl
  · exact Or.inr (List.mem_map.mpr ⟨p, hp, rfl⟩)

theorem keys_mapSet_nodup {m : List (String × TranscriptMessage)}
    {k : String} {v : TranscriptMessage}
    (hnd : (m.map Prod.fst).Nodup) :
    ((mapSet m k v).map Prod.fst).Nodup := by
  induction m with
  | nil => simp [mapSet]
  | cons p rest ih =>
      obtain ⟨k', v'⟩ := p
      simp only [List.map_cons, List.nodup_cons] at hnd
      obtain ⟨hk'nm, hndrest⟩ := hnd
      by_cases hk : k' = k
      · simp only [mapSet, if_pos hk, List.map_cons, List.nodup_cons]
        exact ⟨hk ▸ hk'nm, hndrest⟩
      · simp only [mapSet, if_neg hk, List.map_cons, List.nodup_cons]
        refine ⟨fun hmem => ?_, ih hndrest⟩
        rcases mem_keys_mapSet hmem with rfl | hmem
        · exact hk rfl
        · exact hk'nm hmem

theorem mapWF_mapSet {m : List (String × TranscriptMessage)}
    {k : String} {v : TranscriptMessage} (hm : MapWF m) (hv : v.id = k) :
    MapWF (mapSet m k v) := by
  obtain ⟨hnd, hid⟩ := hm
  refine ⟨keys_mapSet_nodup hnd, fun p hp => ?_⟩
  rcases mem_mapSet hp with rfl | hp
  · exact hv
  · exact hid p hp

theorem handleSeg_wf {speaker : Speaker} {now : Int}
    {acc : List (String × TranscriptMessage) × Bool}
    {seg : TranscriptionSegment} (h : MapWF acc.1) :
    MapWF (handleSeg speaker now acc seg).1 := by
  unfold handleSeg
  by_cases he : segEmpty seg
  · simpa [he] using h
  · by_cases hd : updCond (mapGet acc.1 seg.id) seg
    · simpa [he, hd] using
        mapWF_mapSet h (rfl : (mkStored speaker now seg).id = seg.id)
    · simpa [he, hd] using h

theorem handleSeg_unchanged {speaker : Speaker} {now : Int}
    {acc : List (String × TranscriptMessage) × Bool}
    {seg : TranscriptionSegment}
    (h : (handleSeg speaker now acc seg).2 = false) :
    handleSeg speaker now acc seg = acc := by
  unfold handleSeg at h ⊢
  by_cases he : segEmpty seg
  · simp [he]
  · by_cases hd : updCond (mapGet acc.1 seg.id) seg
    · simp [he, hd] at h
    · simp [he, hd]

theorem foldl_handleSeg_wf (speaker : Speaker) (now : Int)
    (segs : List TranscriptionSegment)
    (acc : List (String × TranscriptMessage) × Bool) (h : MapWF acc.1) :
    MapWF (segs.foldl (handleSeg speaker now) acc).1 := by
  induction segs generalizing acc with
  | nil => simpa using h
  | cons s rest ih => exact ih _ (handleSeg_wf h)

theorem foldl_handleSeg_unchanged (speaker : Speaker) (now : Int)
    (segs : List TranscriptionSegment)
    (acc : List (String × TranscriptMessage) × Bool)
    (h : (segs.foldl (handleSeg speaker now) acc).2 = false) :
    segs.foldl (handleSeg speaker now) acc = acc := by
  induction segs generalizing acc with
  | nil => rfl
  | cons s rest ih =>
      simp only [List.foldl_cons] at h ⊢
      have h1 := ih _ h
      rw [h1] at h ⊢
      exact handleSeg_unchanged h

/-- Unfolding equation for `handleTranscription` with the fold result
abstracted. -/
theorem handleTranscription_eq (localId : String) (st : TState)
    (participant : Option String) (segs : List TranscriptionSegment)
    (now : Int) (m : List (String × TranscriptMessage)) (c : Bool)
    (hfold : segs.foldl (handleSeg (speakerOf localId participant) now)
      (st.segMap, false) = (m, c)) :
    handleTranscription localId st participant segs now =
      if c then ⟨m, sortByTs (mapValues m)⟩ else ⟨m, st.messages⟩ := by
  simp only [handleTranscription, hfold]

theorem tInv_handleTranscription {localId : String} {st : TState}
    {participant : Option String} {segs : List TranscriptionSegment}
    {now : Int} (h : TInv st) :
    TInv (handleTranscription localId st participant segs now) := by
  obtain ⟨hwf, hmsg⟩ := h
  rcases hfold : segs.foldl (handleSeg (speakerOf localId participant) now)
      (st.segMap, false) with ⟨m, c⟩
  rw [handleTranscription_eq localId st participant segs now m c hfold]
  cases c with
  | true =>
      refine ⟨?_, rfl⟩
      have hw := foldl_handleSeg_wf (speakerOf localId participant) now segs
        (st.segMap, false) hwf
      rw [hfold] at hw
      exact hw
  | false =>
      have h0 := foldl_handleSeg_unchanged (speakerOf localId participant)
        now segs (st.segMap, false) (by rw [hfold])
      rw [hfold] at h0
      have hm : m = st.segMap := congrArg Prod.fst h0
      subst hm
      simpa [TInv] using ⟨hwf, hmsg⟩

theorem tInv_init : TInv initT :=
  ⟨⟨List.nodup_nil, fun p hp => absurd hp (List.not_mem_nil p)⟩, rfl⟩

theorem tInv_runT (localId : String) (ds : List Delivery) :
    TInv (runT localId initT ds) := by
  unfold runT
  induction ds using List.reverseRecOn with
  | nil => exact tInv_init
  | append_singleton ds d ih =>
      rw [List.foldl_append]
      exact tInv_handleTranscription ih

/-- Behaviour of one event delivering a single segment, by cases on the two
guards of the loop body. -/
theorem handleTranscription_single (localId : String) (st : TState)
    (p : Option String) (seg : TranscriptionSegment) (now : Int) :
    handleTranscription localId st p [seg] now =
      if segEmpty seg then st
      else if updCond (mapGet st.segMap seg.id) seg then
        ⟨mapSet st.segMap seg.id (mkStored (speakerOf localId p) now seg),
         sortByTs (mapValues
           (mapSet st.segMap seg.id (mkStored (speakerOf localId p) now seg)))⟩
      else st := by
  by_cases he : segEmpty seg
  · rw [handleTranscription_eq localId st p [seg] now st.segMap false
      (by simp [handleSeg, he])]
    simp [he]
  · by_cases hd : updCond (mapGet st.segMap seg.id) seg
    · rw [handleTranscription_eq localId st p [seg] now
        (mapSet st.segMap seg.id (mkStored (speakerOf localId p) now seg)) true
        (by simp [handleSeg, he, hd])]
      simp [he, hd]
    · rw [handleTranscription_eq localId st p [seg] now st.segMap false
        (by simp [handleSeg, he, hd])]
      simp [he, hd]

/-! ## Claim theorems about the transcript assembler -/

/-- C3: redelivering to the assembler a segment identical to the one already
stored (same id, same text, same finality) any number of times is a no-op:
the segment map and the visible message list are unchanged beyond the first
application. -/
theorem C3_transcript_redelivery_idempotent (localId : String) (st : TState)
    (p : Option String) (seg : TranscriptionSegment) (now : Int)
    (e : TranscriptMessage)
    (h1 : mapGet st.segMap seg.id = some e)
    (h2 : seg.text = some e.text)
    (h3 : seg.final = e.isFinal) :
    ∀ n : Nat,
      (fun s => handleTranscription localId s p [seg] now)^[n] st = st := by
  have hstep : handleTranscription localId st p [seg] now = st := by
    rw [handleTranscription_single]
    by_cases he : segEmpty seg
    · simp [he]
    · have hcond : updCond (mapGet st.segMap seg.id) seg = false := by
        rw [h1]
        simp [updCond, h2, h3]
      simp [he, hcond]
  intro n
  induction n with
  | zero => rfl
  | succ n ih => rw [Function.iterate_succ_apply, hstep, ih]

/-- Witness for C3 at a concrete stored segment and redelivery. -/
theorem C3_transcript_redelivery_idempotent_witness :
    (fun s => handleTranscription "local" s (some "local")
        [⟨"s1", some "hello", true, some 3⟩] 9)^[5]
      ⟨[("s1", ⟨"s1", "hello", .user, true, 3⟩)],
        [⟨"s1", "hello", .user, true, 3⟩]⟩ =
      ⟨[("s1", ⟨"s1", "hello", .user, true, 3⟩)],
        [⟨"s1", "hello", .user, true, 3⟩]⟩ :=
  C3_transcript_redelivery_idempotent "local"
    ⟨[("s1", ⟨"s1", "hello", .user, true, 3⟩)],
      [⟨"s1", "hello", .user, true, 3⟩]⟩
    (some "local") ⟨"s1", some "hello", true, some 3⟩ 9
    ⟨"s1", "hello", .user, true, 3⟩ rfl rfl rfl 5

/-- C4: after any sequence of deliveries (in particular after every effective
update) the visible list is a permutation of the stored segments, sorted by
first-seen timestamp in non-decreasing order, and segments with equal
timestamps appear in their insertion order into the segment map. -/
theorem C4_transcript_sorted_stable (localId : String) (ds : List Delivery) :
    ((runT localId initT ds).messages).Perm
        (mapValues (runT localId initT ds).segMap) ∧
      ((runT localId initT ds).messages).Pairwise tsLE ∧
      ∀ t : Int,
        ((runT localId initT ds).messages).filter
            (fun m => m.timestamp == t) =
          (mapValues (runT localId initT ds).segMap).filter
            (fun m => m.timestamp == t) := by
  obtain ⟨-, hmsg⟩ := tInv_runT localId ds
  rw [hmsg]
  exact ⟨sortByTs_perm _, sortByTs_sorted _, fun t => sortByTs_filter _ t⟩

/-- C5: the visible message log is de-duplicated by segment id — it never
contains two entries with the same id, whatever deliveries occurred. -/
theorem C5_transcript_dedup (localId : String) (ds : List Delivery) :
    (((runT localId initT ds).messages).map
      (fun m => m.id)).Nodup := by
  obtain ⟨⟨hnd, hid⟩, hmsg⟩ := tInv_runT localId ds
  have hperm : (((runT localId initT ds).messages).map (fun m => m.id)).Perm
      ((mapValues (runT localId initT ds).segMap).map (fun m => m.id)) := by
    rw [hmsg]
    exact (sortByTs_perm _).map _
  refine hperm.nodup_iff.mpr ?_
  have hvals : (mapValues (runT localId initT ds).segMap).map
      (fun m => m.id) =
      ((runT localId initT ds).segMap).map Prod.fst := by
    unfold mapValues
    rw [List.map_map]
    exact List.map_congr_left fun p hp => hid p hp
  rw [hvals]
  exact hnd

/-- C8: a delivered segment whose text is absent, empty or whitespace-only
changes nothing at all: the loop body leaves any accumulator untouched, and a
delivery consisting of such a segment leaves the whole state (segment map and
visible list) unchanged, whatever its id or finality. -/
theorem C8_empty_segment_noop (localId : String) (st : TState)
    (p : Option String) (seg : TranscriptionSegment) (now : Int)
    (sp : Speaker) (acc : List (String × TranscriptMessage) × Bool)
    (h : segEmpty seg = true) :
    handleSeg sp now acc seg = acc ∧
      handleTranscription localId st p [seg] now = st := by
  constructor
  · simp [handleSeg, h]
  · rw [handleTranscription_single]
    simp [h]

/-- Witness for C8 on a whitespace-only segment with an unseen id and
finality `true`. -/
theorem C8_empty_segment_noop_witness :
    handleSeg .agent 4 ([], false) ⟨"s9", some "  ", true, some 7⟩ =
        ([], false) ∧
      handleTranscription "local" initT none
        [⟨"s9", some "  ", true, some 7⟩] 4 = initT :=
  C8_empty_segment_noop "local" initT none ⟨"s9", some "  ", true, some 7⟩ 4
    .agent ([], false) (by decide)

/-- C9: the stored speaker is `user` exactly when the delivering participant's
identity equals the local participant's identity and `agent` otherwise, and on
every effective (re-)delivery the stored record — speaker included — is
recomputed from the current delivery, not retained. -/
theorem C9_speaker_recomputed (localId : String) (st : TState)
    (p : Option String) (seg : TranscriptionSegment) (now : Int)
    (h1 : segEmpty seg = false)
    (h2 : updCond (mapGet st.segMap seg.id) seg = true) :
    mapGet (handleTranscription localId st p [seg] now).segMap seg.id =
      some
        { id := seg.id
          text := seg.text.getD ""
          speaker := if p = some localId then .user else .agent
          isFinal := seg.final
          timestamp := jsOrInt seg.firstReceivedTime now } := by
  rw [handleTranscription_single]
  simp only [h1, Bool.false_eq_true, if_false, h2, if_true]
  exact mapGet_mapSet_self _ _ _

/-- Witness for C9: a re-delivery of an existing segment by a different
participant overwrites the stored speaker (`user` becomes `agent`). -/
theorem C9_speaker_recomputed_witness :
    mapGet (handleTranscription "local"
        ⟨[("s1", ⟨"s1", "old", .user, false, 3⟩)],
          [⟨"s1", "old", .user, false, 3⟩]⟩
        none [⟨"s1", some "new", true, some 3⟩] 8).segMap "s1" =
      some ⟨"s1", "new", .agent, true, 3⟩ :=
  C9_speaker_recomputed "local"
    ⟨[("s1", ⟨"s1", "old", .user, false, 3⟩)],
      [⟨"s1", "old", .user, false, 3⟩]⟩
    none ⟨"s1", some "new", true, some 3⟩ 8 (by decide) (by decide)

/-- C1 counterexample: the claim that a true→false finality regression is
ignored is false on the code.  Delivering segment `"s1"` with text `"hi"` and
finality `true`, then redelivering the same id and text with finality `false`,
stores finality `false`: the guard `existing.isFinal !== seg.final` fires on
any finality change, so the regression is applied, not ignored. -/
theorem C1_finality_regression_applied :
    (mapGet (handleTranscription "L" initT (some "L")
        [⟨"s1", some "hi", true, some 5⟩] 0).segMap "s1").map
        TranscriptMessage.isFinal = some true ∧
      (mapGet (handleTranscription "L"
          (handleTranscription "L" initT (some "L")
            [⟨"s1", some "hi", true, some 5⟩] 0)
          (some "L") [⟨"s1", some "hi", false, some 5⟩] 0).segMap "s1").map
        TranscriptMessage.isFinal = some false := by
  constructor <;> decide

/-- C1 amended: on a delivery of a non-empty segment, the assembler updates
the stored entry exactly when the segment is unseen, the text differs, or the
finality flag differs in either direction — a true→false finality delivery is
applied (overwriting the stored entry), not ignored; when nothing differs the
state is unchanged. -/
theorem C1_merge_rule_amended (localId : String) (st : TState)
    (p : Option String) (seg : TranscriptionSegment) (now : Int)
    (h : segEmpty seg = false) :
    (mapGet st.segMap seg.id = none →
      handleTranscription localId st p [seg] now =
        ⟨mapSet st.segMap seg.id (mkStored (speakerOf localId p) now seg),
         sortByTs (mapValues (mapSet st.segMap seg.id
           (mkStored (speakerOf localId p) now seg)))⟩) ∧
    ∀ e : TranscriptMessage, mapGet st.segMap seg.id = some e →
      handleTranscription localId st p [seg] now =
        (if e.text ≠ seg.text.getD "" ∨ e.isFinal ≠ seg.final then
          ⟨mapSet st.segMap seg.id (mkStored (speakerOf localId p) now seg),
           sortByTs (mapValues (mapSet st.segMap seg.id
             (mkStored (speakerOf localId p) now seg)))⟩
        else st) := by
  constructor
  · intro hnone
    rw [handleTranscription_single]
    have hcond : updCond (mapGet st.segMap seg.id) seg = true := by
      rw [hnone]; rfl
    simp [h, hcond]
  · intro e he
    rw [handleTranscription_single]
    by_cases hdiff : e.text ≠ seg.text.getD "" ∨ e.isFinal ≠ seg.final
    · have hcond : updCond (mapGet st.segMap seg.id) seg = true := by
        rw [he]
        rcases hdiff with hd | hd <;>
          simp [updCond, hd]
    -- either disjunct makes the boolean guard true
      simp [h, hcond, hdiff]
    · push_neg at hdiff
      have hcond : updCond (mapGet st.segMap seg.id) seg = false := by
        rw [he]
        simp [updCond, hdiff.1, hdiff.2]
      have hdiff' : ¬(e.text ≠ seg.text.getD "" ∨ e.isFinal ≠ seg.final) := by
        push_neg
        exact hdiff
      simp [h, hcond, hdiff']

/-- Witness for C1 amended: a stored-final segment redelivered with the same
text and finality `false` is overwritten. -/
theorem C1_merge_rule_amended_witness :
    (mapGet (⟨[("s1", ⟨"s1", "hi", .user, true, 5⟩)],
          [⟨"s1", "hi", .user, true, 5⟩]⟩ : TState).segMap "s1" = none →
      handleTranscription "L"
          ⟨[("s1", ⟨"s1", "hi", .user, true, 5⟩)],
            [⟨"s1", "hi", .user, true, 5⟩]⟩
          (some "L") [⟨"s1", some "hi", false, some 5⟩] 0 =
        ⟨mapSet [("s1", ⟨"s1", "hi", .user, true, 5⟩)] "s1"
            (mkStored (speakerOf "L" (some "L")) 0
              ⟨"s1", some "hi", false, some 5⟩),
          sortByTs (mapValues (mapSet [("s1", ⟨"s1", "hi", .user, true, 5⟩)]
            "s1" (mkStored (speakerOf "L" (some "L")) 0
              ⟨"s1", some "hi", false, some 5⟩)))⟩) ∧
    ∀ e : TranscriptMessage,
      mapGet (⟨[("s1", ⟨"s1", "hi", .user, true, 5⟩)],
          [⟨"s1", "hi", .user, true, 5⟩]⟩ : TState).segMap "s1" = some e →
      handleTranscription "L"
          ⟨[("s1", ⟨"s1", "hi", .user, true, 5⟩)],
            [⟨"s1", "hi", .user, true, 5⟩]⟩
          (some "L") [⟨"s1", some "hi", false, some 5⟩] 0 =
        (if e.text ≠ "hi" ∨ e.isFinal ≠ false then
          ⟨mapSet [("s1", ⟨"s1", "hi", .user, true, 5⟩)] "s1"
              (mkStored (speakerOf "L" (some "L")) 0
                ⟨"s1", some "hi", false, some 5⟩),
            sortByTs (mapValues (mapSet
              [("s1", ⟨"s1", "hi", .user, true, 5⟩)] "s1"
              (mkStored (speakerOf "L" (some "L")) 0
                ⟨"s1", some "hi", false, some 5⟩)))⟩
        else ⟨[("s1", ⟨"s1", "hi", .user, true, 5⟩)],
          [⟨"s1", "hi", .user, true, 5⟩]⟩) :=
  C1_merge_rule_amended "L"
    ⟨[("s1", ⟨"s1", "hi", .user, true, 5⟩)], [⟨"s1", "hi", .user, true, 5⟩]⟩
    (some "L") ⟨"s1", some "hi", false, some 5⟩ 0 (by decide)

/-! ## Booking Store lemmas -/

theorem countB_eq (l : List Appointment) (d t : String) :
    countB l d t = (l.filter (isBookedAt d t)).length := rfl

theorem countB_cons (x : Appointment) (l : List Appointment) (d t : String) :
    countB (x :: l) d t =
      (if isBookedAt d t x then 1 else 0) + countB l d t := by
  rw [countB_eq, countB_eq, List.filter_cons]
  split <;> simp [Nat.add_comm]

theorem countB_append_one (l : List Appointment) (a : Appointment)
    (d t : String) :
    countB (l ++ [a]) d t =
      countB l d t + (if isBookedAt d t a then 1 else 0) := by
  rw [countB_eq, countB_eq, List.filter_append]
  rw [List.length_append]
  congr 1
  rw [List.filter_cons]
  split <;> simp

theorem countB_pos_of_mem {l : List Appointment} {x : Appointment}
    {d t : String} (hm : x ∈ l) (hx : isBookedAt d t x = true) :
    1 ≤ countB l d t := by
  rw [countB_eq]
  have : x ∈ l.filter (isBookedAt d t) := List.mem_filter.mpr ⟨hm, hx⟩
  exact List.length_pos.mpr (List.ne_nil_of_mem this)

theorem countB_eq_zero {l : List Appointment} {d t : String} :
    countB l d t = 0 ↔ ∀ a ∈ l, isBookedAt d t a = false := by
  rw [countB_eq, List.length_eq_zero, List.filter_eq_nil_iff]
  constructor
  · intro h a ha
    exact Bool.eq_false_iff.mpr (h a ha)
  · intro h a ha
    exact Bool.eq_false_iff.mp (h a ha)

theorem filter_length_set_le {α : Type} (l : List α) (i : Nat) (x : α)
    (p : α → Bool) (hx : p x = false) :
    ((l.set i x).filter p).length ≤ (l.filter p).length := by
  induction l generalizing i with
  | nil => simp
  | cons y ys ih =>
      cases i with
      | zero =>
          rw [List.set_cons_zero, List.filter_cons, List.filter_cons]
          rw [hx]
          simp only [Bool.false_eq_true, if_false]
          split
          · exact Nat.le_succ_of_le (Nat.le_refl _)
          · exact Nat.le_refl _
      | succ j =>
          rw [List.set_cons_succ, List.filter_cons, List.filter_cons]
          split
          · simpa using ih j
          · exact ih j

theorem countB_set_le (l : List Appointment) (i : Nat) (x : Appointment)
    (d t : String) (hx : isBookedAt d t x = false) :
    countB (l.set i x) d t ≤ countB l d t := by
  rw [countB_eq, countB_eq]
  exact filter_length_set_le l i x _ hx

/-- If at most one booked appointment references `(d, t)`, the appointment at
index `i` is booked and references it, then any *other* surviving element of
`l.set i a'` that is booked does not reference `(d, t)`. -/
theorem booked_other_ne_key (l : List Appointment) (i : Nat)
    (a b a' : Appointment) (d t : String)
    (hcount : countB l d t ≤ 1)
    (hget : l[i]? = some a)
    (hab : isBookedAt d t a = true)
    (hb : b ∈ l.set i a') (hba : b ≠ a')
    (hbs : isBookedAt d t b = true) : False := by
  induction l generalizing i with
  | nil => simp at hget
  | cons y ys ih =>
      cases i with
      | zero =>
          rw [List.getElem?_cons_zero, Option.some_inj] at hget
          subst hget
          rw [List.set_cons_zero] at hb
          rcases List.mem_cons.mp hb with rfl | hb
          · exact hba rfl
          · have h1 : 1 ≤ countB ys d t := countB_pos_of_mem hb hbs
            rw [countB_cons, hab, if_pos rfl] at hcount
            omega
      | succ j =>
          rw [List.getElem?_cons_succ] at hget
          rw [List.set_cons_succ] at hb
          rcases List.mem_cons.mp hb with rfl | hb
          · have ha' : a ∈ ys := List.getElem?_mem hget
            have h1 : 1 ≤ countB ys d t := countB_pos_of_mem ha' hab
            rw [countB_cons, hbs, if_pos rfl] at hcount
            omega
          · have hc : countB ys d t ≤ 1 := by
              rw [countB_cons] at hcount
              omega
            exact ih j hc hget hb

theorem slotKeys_setSlot (s : List Slot) (d t : String) (b : Bool) :
    slotKeys (setSlot s d t b) = slotKeys s := by
  unfold slotKeys setSlot
  rw [List.map_map]
  refine List.map_congr_left fun sl _ => ?_
  simp only [Function.comp_apply]
  split <;> rfl

theorem findSlot_mem {s : List Slot} {d t : String} {sl : Slot}
    (h : findSlot s d t = some sl) :
    sl ∈ s ∧ sl.date = d ∧ sl.time = t := by
  unfold findSlot at h
  refine ⟨List.mem_of_find?_eq_some h, ?_⟩
  have := List.find?_some h
  simpa using this

theorem slot_eq_of_key {s : List Slot} (hnd : (slotKeys s).Nodup)
    {sl sl' : Slot} (h1 : sl ∈ s) (h2 : sl' ∈ s)
    (hd : sl.date = sl'.date) (ht : sl.time = sl'.time) : sl = sl' := by
  have hnd' : (s.map (fun sl : Slot => (sl.date, sl.time))).Nodup := by
    simpa [slotKeys] using hnd
  exact List.inj_on_of_nodup_map hnd' h1 h2 (by simp [hd, ht])

theorem setSlot_mem_nomatch {s : List Slot} {sl : Slot}
    (h : sl ∈ s) {d t : String} {b : Bool}
    (hk : (sl.date == d && sl.time == t) = false) :
    sl ∈ setSlot s d t b := by
  unfold setSlot
  have : sl = (fun sl : Slot =>
      if sl.date == d && sl.time == t then { sl with booked := b }
      else sl) sl := by simp [hk]
  rw [this]
  exact List.mem_map_of_mem _ h

theorem setSlot_mem_keep_true {s : List Slot} {sl : Slot}
    (h : sl ∈ s) (hb : sl.booked = true) (d t : String) :
    ∃ sl' ∈ setSlot s d t true,
      sl'.date = sl.date ∧ sl'.time = sl.time ∧ sl'.booked = true := by
  by_cases hk : (sl.date == d && sl.time == t) = true
  · refine ⟨{ sl with booked := true }, ?_, rfl, rfl, rfl⟩
    unfold setSlot
    refine List.mem_map.mpr ⟨sl, h, ?_⟩
    simp only [if_pos hk]
  · refine ⟨sl, ?_, rfl, rfl, hb⟩
    exact setSlot_mem_nomatch h (Bool.eq_false_iff.mpr hk)

theorem setSlot_mem_match {s : List Slot} {sl : Slot}
    (h : sl ∈ s) {d t : String} {b : Bool}
    (hd : sl.date = d) (ht : sl.time = t) :
    { sl with booked := b } ∈ setSlot s d t b := by
  unfold setSlot
  refine List.mem_map.mpr ⟨sl, h, ?_⟩
  simp [hd, ht]

/-- In a well-formed store, a slot found free has no booked appointment on
it. -/
theorem countB_free_eq_zero {st : Store} (hwf : StoreWF st)
    {d t : String} {sl : Slot} (hf : findSlot st.slots d t = some sl)
    (hb : sl.booked = false) : countB st.appts d t = 0 := by
  obtain ⟨hnd, hsync, -⟩ := hwf
  obtain ⟨hmem, hd, ht⟩ := findSlot_mem hf
  rw [countB_eq_zero]
  intro a ha
  by_contra hcon
  rw [Bool.not_eq_false] at hcon
  unfold isBookedAt at hcon
  simp only [Bool.and_eq_true, beq_iff_eq] at hcon
  obtain ⟨⟨hs, had⟩, hat⟩ := hcon
  obtain ⟨sl', hsl'm, hsl'd, hsl't, hsl'b⟩ := hsync a ha hs
  have : sl = sl' := slot_eq_of_key hnd hmem hsl'm
    (by rw [hd, hsl'd, had]) (by rw [ht, hsl't, hat])
  rw [this, hsl'b] at hb
  exact Bool.noConfusion hb

theorem isBookedAt_false_of_status {a : Appointment}
    (h : a.status ≠ .booked) (d t : String) :
    isBookedAt d t a = false := by
  unfold isBookedAt
  have hs : (a.status == ApptStatus.booked) = false := beq_eq_false_iff_ne.mpr h
  simp [hs]

theorem storeWF_book (st : Store) (phone d t : String) (hwf : StoreWF st) :
    StoreWF (book st phone d t).1 := by
  unfold book
  rcases hf : findSlot st.slots d t with _ | sl
  · exact hwf
  · by_cases hb : sl.booked = true
    · simp only [hb, if_true]
      exact hwf
    · have hbf : sl.booked = false := Bool.eq_false_iff.mpr hb
      obtain ⟨hnd, hsync, huniq⟩ := hwf
      obtain ⟨hmem, hd, ht⟩ := findSlot_mem hf
      simp only [hb, Bool.false_eq_true, if_false]
      refine ⟨?_, ?_, ?_⟩
      · simpa [slotKeys_setSlot] using hnd
      · intro a ha has
        rcases List.mem_append.mp ha with ha | ha
        · obtain ⟨slb, hslbm, h1, h2, h3⟩ := hsync a ha has
          obtain ⟨sl', hsl'm, g1, g2, g3⟩ :=
            setSlot_mem_keep_true hslbm h3 d t
          exact ⟨sl', hsl'm, by rw [g1, h1], by rw [g2, h2], g3⟩
        · rcases List.mem_singleton.mp ha with rfl
          refine ⟨{ sl with booked := true }, setSlot_mem_match hmem hd ht,
            ?_, ?_, rfl⟩
          · exact hd
          · exact ht
      · intro d₀ t₀
        rw [countB_append_one]
        by_cases hmatch :
            isBookedAt d₀ t₀ (⟨phone, d, t, .booked⟩ : Appointment) = true
        · have hdt : d = d₀ ∧ t = t₀ := by
            unfold isBookedAt at hmatch
            simpa using hmatch
          have h0 : countB st.appts d₀ t₀ = 0 := by
            rw [← hdt.1, ← hdt.2]
            exact countB_free_eq_zero ⟨hnd, hsync, huniq⟩ hf hbf
          rw [h0, hmatch, if_pos rfl]
        · rw [Bool.eq_false_iff.mpr hmatch]
          simp only [Bool.false_eq_true, if_false, Nat.add_zero]
          exact huniq d₀ t₀

theorem storeWF_cancel (st : Store) (i : Nat) (hwf : StoreWF st) :
    StoreWF (cancel st i).1 := by
  unfold cancel
  rcases hg : st.appts[i]? with _ | a
  · exact hwf
  · by_cases hs : a.status = ApptStatus.booked
    · obtain ⟨hnd, hsync, huniq⟩ := hwf
      simp only [if_pos hs]
      have hab : isBookedAt a.date a.time a = true := by
        unfold isBookedAt
        simp [hs]
      refine ⟨?_, ?_, ?_⟩
      · simpa [slotKeys_setSlot] using hnd
      · intro b hb hbs
        have hbne : b ≠ { a with status := ApptStatus.cancelled } := by
          intro hcon
          rw [hcon] at hbs
          exact ApptStatus.noConfusion hbs
        have hbmem : b ∈ st.appts := by
          rcases List.mem_or_eq_of_mem_set hb with h | h
          · exact h
          · exact absurd h hbne
        obtain ⟨slb, hslbm, h1, h2, h3⟩ := hsync b hbmem hbs
        have hkey : ¬(isBookedAt a.date a.time b = true) := fun hcon =>
          booked_other_ne_key st.appts i a b
            { a with status := ApptStatus.cancelled } a.date a.time
            (huniq a.date a.time) hg hab hb hbne hcon
        have hkne : (slb.date == a.date && slb.time == a.time) = false := by
          rw [h1, h2]
          by_contra hcon
          rw [Bool.not_eq_false, Bool.and_eq_true] at hcon
          apply hkey
          unfold isBookedAt
          rw [Bool.and_eq_true, Bool.and_eq_true]
          exact ⟨⟨by simp [hbs], hcon.1⟩, hcon.2⟩
        exact ⟨slb, setSlot_mem_nomatch hslbm hkne, h1, h2, h3⟩
      · intro d₀ t₀
        show countB
          (st.appts.set i { a with status := ApptStatus.cancelled }) d₀ t₀ ≤ 1
        refine le_trans (countB_set_le _ _ _ _ _ ?_) (huniq d₀ t₀)
        exact isBookedAt_false_of_status (by intro hcon; cases hcon) d₀ t₀
    · simp only [if_neg hs]
      exact hwf

theorem storeWF_modify (st : Store) (i : Nat) (d t : String)
    (hwf : StoreWF st) : StoreWF (modify st i d t).1 := by
  unfold modify
  rcases hg : st.appts[i]? with _ | a
  · exact hwf
  · by_cases hs : a.status = ApptStatus.booked
    · simp only [if_pos hs]
      rcases hf : findSlot st.slots d t with _ | sl
      · exact hwf
      · by_cases hb : sl.booked = true
        · simp only [hb, if_true]
          exact hwf
        · have hbf : sl.booked = false := Bool.eq_false_iff.mpr hb
          simp only [hb, Bool.false_eq_true, if_false]
          obtain ⟨hnd, hsync, huniq⟩ := hwf
          obtain ⟨hslm, hsld, hslt⟩ := findSlot_mem hf
          have hamem : a ∈ st.appts := List.getElem?_mem hg
          obtain ⟨sla, hslam, ha1, ha2, ha3⟩ := hsync a hamem hs
          have hne : ¬(d = a.date ∧ t = a.time) := by
            rintro ⟨hda, hta⟩
            have heq : sl = sla := slot_eq_of_key hnd hslm hslam
              (by rw [hsld, ha1, hda]) (by rw [hslt, ha2, hta])
            rw [heq, ha3] at hbf
            exact Bool.noConfusion hbf
          have hab : isBookedAt a.date a.time a = true := by
            unfold isBookedAt
            simp [hs]
          have h0 : countB st.appts d t = 0 :=
            countB_free_eq_zero ⟨hnd, hsync, huniq⟩ hf hbf
          refine ⟨?_, ?_, ?_⟩
          · simpa [slotKeys_setSlot] using hnd
          · intro b hbm hbs
            rcases List.mem_append.mp hbm with hbm | hbm
            · have hbne : b ≠ { a with status := ApptStatus.modifiedAway } := by
                intro hcon
                rw [hcon] at hbs
                exact ApptStatus.noConfusion hbs
              have hbmem : b ∈ st.appts := by
                rcases List.mem_or_eq_of_mem_set hbm with h | h
                · exact h
                · exact absurd h hbne
              obtain ⟨slb, hslbm, h1, h2, h3⟩ := hsync b hbmem hbs
              obtain ⟨sl', hsl'm, g1, g2, g3⟩ :=
                setSlot_mem_keep_true hslbm h3 d t
              have hkey : ¬(isBookedAt a.date a.time b = true) := fun hcon =>
                booked_other_ne_key st.appts i a b
                  { a with status := ApptStatus.modifiedAway } a.date a.time
                  (huniq a.date a.time) hg hab hbm hbne hcon
              have hkne : (sl'.date == a.date && sl'.time == a.time)
                  = false := by
                rw [g1, g2, h1, h2]
                by_contra hcon
                rw [Bool.not_eq_false, Bool.and_eq_true] at hcon
                apply hkey
                unfold isBookedAt
                rw [Bool.and_eq_true, Bool.and_eq_true]
                exact ⟨⟨by simp [hbs], hcon.1⟩, hcon.2⟩
              exact ⟨sl', setSlot_mem_nomatch hsl'm hkne,
                by rw [g1, h1], by rw [g2, h2], g3⟩
            · rcases List.mem_singleton.mp hbm with rfl
              have hmem1 : { sl with booked := true } ∈
                  setSlot st.slots d t true :=
                setSlot_mem_match hslm hsld hslt
              have hkne : (({ sl with booked := true } : Slot).date == a.date
                  && ({ sl with booked := true } : Slot).time == a.time)
                  = false := by
                show (sl.date == a.date && sl.time == a.time) = false
                by_contra hcon
                rw [Bool.not_eq_false, Bool.and_eq_true] at hcon
                refine hne ⟨?_, ?_⟩
                · rw [← hsld]
                  exact beq_iff_eq.mp hcon.1
                · rw [← hslt]
                  exact beq_iff_eq.mp hcon.2
              exact ⟨{ sl with booked := true },
                setSlot_mem_nomatch hmem1 hkne,
                by simpa using hsld, by simpa using hslt, rfl⟩
          · intro d₀ t₀
            show countB
              ((st.appts.set i { a with status := ApptStatus.modifiedAway })
                ++ [⟨a.phone, d, t, .booked⟩]) d₀ t₀ ≤ 1
            rw [countB_append_one]
            have hsetle : countB
                (st.appts.set i { a with status := ApptStatus.modifiedAway })
                d₀ t₀ ≤ countB st.appts d₀ t₀ :=
              countB_set_le _ _ _ _ _
                (isBookedAt_false_of_status (by intro hcon; cases hcon) _ _)
            by_cases hmatch :
                isBookedAt d₀ t₀ (⟨a.phone, d, t, .booked⟩ : Appointment)
                  = true
            · have hdt : d = d₀ ∧ t = t₀ := by
                unfold isBookedAt at hmatch
                simpa using hmatch
              have hz : countB st.appts d₀ t₀ = 0 := by
                rw [← hdt.1, ← hdt.2]
                exact h0
              rw [hmatch, if_pos rfl]
              omega
            · rw [Bool.eq_false_iff.mpr hmatch]
              simp only [Bool.false_eq_true, if_false, Nat.add_zero]
              exact le_trans hsetle (huniq d₀ t₀)
    · simp only [if_neg hs]
      exact hwf

theorem storeWF_applyOp (st : Store) (op : BookOp) (hwf : StoreWF st) :
    StoreWF (applyOp st op).1 := by
  cases op with
  | book phone d t => exact storeWF_book st phone d t hwf
  | cancel i => exact storeWF_cancel st i hwf
  | modify i d t => exact storeWF_modify st i d t hwf

theorem storeWF_applyOps (st : Store) (ops : List BookOp) (hwf : StoreWF st) :
    StoreWF (applyOps st ops) := by
  unfold applyOps
  induction ops generalizing st with
  | nil => exact hwf
  | cons op rest ih => exact ih _ (storeWF_applyOp st op hwf)

/-- C2: (spec-modelled Booking Store) for every interleaving of `book`,
`cancel` and `modify` operations across any number of sessions — a sequence
of atomic operations, since the store serializes them — starting from a
well-formed store, at most one appointment with status `booked` references a
given slot at any time. -/
theorem C2_unique_booking (st : Store) (ops : List BookOp)
    (h : StoreWF st) (d t : String) :
    countB (applyOps st ops).appts d t ≤ 1 :=
  (storeWF_applyOps st ops h).2.2 d t

/-- Witness for C2: two sessions race to book the same slot, then the winner
modifies and the loser's index is cancelled. -/
theorem C2_unique_booking_witness :
    countB (applyOps
      ⟨[⟨"2025-01-01", "09:00", false⟩, ⟨"2025-01-01", "10:00", false⟩], []⟩
      [.book "5551234567" "2025-01-01" "09:00",
       .book "5559876543" "2025-01-01" "09:00",
       .modify 0 "2025-01-01" "10:00",
       .cancel 0]).appts "2025-01-01" "09:00" ≤ 1 :=
  C2_unique_booking
    ⟨[⟨"2025-01-01", "09:00", false⟩, ⟨"2025-01-01", "10:00", false⟩], []⟩
    [.book "5551234567" "2025-01-01" "09:00",
     .book "5559876543" "2025-01-01" "09:00",
     .modify 0 "2025-01-01" "10:00",
     .cancel 0]
    ⟨by decide, fun a ha => absurd ha (List.not_mem_nil a),
      fun d t => Nat.zero_le 1⟩
    "2025-01-01" "09:00"

theorem countCS_append (l1 l2 : List SEvent) :
    countCS (l1 ++ l2) = countCS l1 + countCS l2 := by
  unfold countCS
  rw [List.filter_append, List.length_append]

theorem countCS_cons (e : SEvent) (l : List SEvent) :
    countCS (e :: l) = (if isCS e then 1 else 0) + countCS l := by
  unfold countCS
  rw [List.filter_cons]
  split <;> simp [Nat.add_comm]

theorem sstep_ended (sess : SessionInfo) (tl : List TRecord) (a : SAction) :
    sstep sess (.ended, tl) a = none := by
  cases a <;> simp [sstep]

theorem runMachine_ended (sess : SessionInfo) (tl : List TRecord)
    (τ : List SAction) (out : (SState × List TRecord) × List SEvent)
    (h : runMachine sess (.ended, tl) τ = some out) :
    τ = [] ∧ out = ((.ended, tl), []) := by
  cases τ with
  | nil =>
      refine ⟨rfl, ?_⟩
      simp only [runMachine, Option.some_inj] at h
      exact h.symm
  | cons a τ' =>
      simp only [runMachine, sstep_ended, Option.none_bind] at h
      exact Option.noConfusion h

theorem runMachine_cons_some {sess : SessionInfo}
    {c : SState × List TRecord} {a : SAction} {τ : List SAction}
    {st' : SState × List TRecord} {evs : List SEvent}
    (h : runMachine sess c (a :: τ) = some (st', evs)) :
    ∃ c' e evs', sstep sess c a = some (c', e) ∧
      runMachine sess c' τ = some (st', evs') ∧ evs = e ++ evs' := by
  rw [runMachine] at h
  rcases hstep : sstep sess c a with _ | ce
  · rw [hstep] at h
    simp at h
  · obtain ⟨c', e⟩ := ce
    rw [hstep] at h
    simp only [Option.some_bind] at h
    rw [Option.map_eq_some'] at h
    obtain ⟨⟨st'', evs'⟩, hrec, heq⟩ := h
    injection heq with h1 h2
    exact ⟨c', e, evs', rfl, h1 ▸ hrec, h2.symm⟩

/-- Along any trace that takes a live state to `Ended` without a transport
loss, the emitted events are some summary-free prefix followed by exactly the
one `call_summary` event, built from the final timeline. -/
theorem run_to_ended (sess : SessionInfo) (τ : List SAction) :
    ∀ (s : SState) (tl tl' : List TRecord) (evs : List SEvent),
      s ≠ .ended →
      runMachine sess (s, tl) τ = some ((.ended, tl'), evs) →
      SAction.transportLost ∉ τ →
      ∃ evs₀, evs = evs₀ ++ [.callSummary (mkSummary sess tl')] ∧
        countCS evs₀ = 0 := by
  induction τ with
  | nil =>
      intro s tl tl' evs hs hrun _
      simp only [runMachine, Option.some_inj] at hrun
      injection hrun with h1 h2
      injection h1 with hA hB
      exact absurd hA hs
  | cons a τ' ih =>
      intro s tl tl' evs hs hrun hnl
      have hnl' : SAction.transportLost ∉ τ' := fun hm =>
        hnl (List.mem_cons_of_mem _ hm)
      have hane : a ≠ SAction.transportLost := fun hEq =>
        hnl (by rw [hEq]; exact List.mem_cons_self _ _)
      obtain ⟨c', e, evs2, hstep, hrec, hevs⟩ := runMachine_cons_some hrun
      cases s with
      | ended => exact absurd rfl hs
      | idle =>
          cases a with
          | begin =>
              simp only [sstep] at hstep
              injection hstep with h12
              injection h12 with h1 h2
              subst h1
              subst h2
              obtain ⟨evs₀, hE, hc0⟩ := ih .identifying tl tl' evs2
                (fun hcon => SState.noConfusion hcon) hrec hnl'
              exact ⟨evs₀, by rw [hevs, List.nil_append, hE], hc0⟩
          | transportLost => exact absurd rfl hane
          | identify => simp [sstep] at hstep
          | runTool r => simp [sstep] at hstep
          | endConv => simp [sstep] at hstep
          | summaryDone => simp [sstep] at hstep
      | identifying =>
          cases a with
          | identify =>
              simp only [sstep] at hstep
              injection hstep with h12
              injection h12 with h1 h2
              subst h1
              subst h2
              obtain ⟨evs₀, hE, hc0⟩ := ih .active tl tl' evs2
                (fun hcon => SState.noConfusion hcon) hrec hnl'
              exact ⟨evs₀, by rw [hevs, List.nil_append, hE], hc0⟩
          | endConv =>
              simp only [sstep] at hstep
              injection hstep with h12
              injection h12 with h1 h2
              subst h1
              subst h2
              obtain ⟨evs₀, hE, hc0⟩ := ih .summarizing tl tl' evs2
                (fun hcon => SState.noConfusion hcon) hrec hnl'
              exact ⟨evs₀, by rw [hevs, List.nil_append, hE], hc0⟩
          | transportLost => exact absurd rfl hane
          | begin => simp [sstep] at hstep
          | runTool r => simp [sstep] at hstep
          | summaryDone => simp [sstep] at hstep
      | active =>
          cases a with
          | identify =>
              simp only [sstep] at hstep
              injection hstep with h12
              injection h12 with h1 h2
              subst h1
              subst h2
              obtain ⟨evs₀, hE, hc0⟩ := ih .active tl tl' evs2
                (fun hcon => SState.noConfusion hcon) hrec hnl'
              exact ⟨evs₀, by rw [hevs, List.nil_append, hE], hc0⟩
          | runTool r =>
              simp only [sstep] at hstep
              injection hstep with h12
              injection h12 with h1 h2
              subst h1
              subst h2
              obtain ⟨evs₀, hE, hc0⟩ := ih .active (tl ++ [r]) tl' evs2
                (fun hcon => SState.noConfusion hcon) hrec hnl'
              refine ⟨.toolCall r :: evs₀, ?_, ?_⟩
              · rw [hevs, hE]
                rfl
              · rw [countCS_cons, hc0]
                rfl
          | endConv =>
              simp only [sstep] at hstep
              injection hstep with h12
              injection h12 with h1 h2
              subst h1
              subst h2
              obtain ⟨evs₀, hE, hc0⟩ := ih .summarizing tl tl' evs2
                (fun hcon => SState.noConfusion hcon) hrec hnl'
              exact ⟨evs₀, by rw [hevs, List.nil_append, hE], hc0⟩
          | transportLost => exact absurd rfl hane
          | begin => simp [sstep] at hstep
          | summaryDone => simp [sstep] at hstep
      | summarizing =>
          cases a with
          | summaryDone =>
              simp only [sstep] at hstep
              injection hstep with h12
              injection h12 with h1 h2
              subst h1
              subst h2
              obtain ⟨hτ, hout⟩ := runMachine_ended sess tl τ' _ hrec
              injection hout with hA hB
              injection hA with hA1 hA2
              refine ⟨[], ?_, rfl⟩
              rw [hevs, hB, hA2]
              simp
          | transportLost => exact absurd rfl hane
          | begin => simp [sstep] at hstep
          | identify => simp [sstep] at hstep
          | runTool r => simp [sstep] at hstep
          | endConv => simp [sstep] at hstep

theorem wfSummary_mkSummary (sess : SessionInfo) (tl : List TRecord) :
    WFSummary (mkSummary sess tl) := by
  refine ⟨rfl, rfl, _, rfl, ?_⟩
  intro e he
  rw [List.mem_filterMap] at he
  obtain ⟨r, hr, hfr⟩ := he
  rcases hk : r.kind with _ | k
  · rw [hk] at hfr
    simp at hfr
  · rw [hk] at hfr
    simp only [Option.map_some'] at hfr
    injection hfr with hfr
    rw [← hfr]
    cases k with
    | booked => exact Or.inl rfl
    | cancelled => exact Or.inr (Or.inl rfl)
    | modified => exact Or.inr (Or.inr rfl)

theorem runSummary_append_last (evs₀ : List SEvent) (j : JsVal)
    (st : Option JsVal) :
    runSummary st ((evs₀ ++ [SEvent.callSummary j]).map eventMsg) = some j := by
  rw [List.map_append]
  unfold runSummary
  rw [List.foldl_append]
  simp [eventMsg, summaryStep]

/-- C7: (spec-modelled producer) along every completed session run — from
call start to `Ended`, not cut short by transport loss — exactly one
`call_summary` event is produced, at the terminal transition (it is the last
event of the run); its payload carries a summary string, a timestamp, and an
appointments list whose entries all have action in
{booked, cancelled, modified} together with date/time, optional
new_date/new_time, details, plus the session's phone_number and user_name;
and the `useCallSummary` subscriber, after processing the run's messages,
exposes exactly that payload (the most recently received one). -/
theorem C7_single_summary (sess : SessionInfo) (τ : List SAction)
    (tl' : List TRecord) (evs : List SEvent)
    (hrun : runMachine sess (.idle, []) τ = some ((.ended, tl'), evs))
    (hnl : SAction.transportLost ∉ τ) :
    countCS evs = 1 ∧
    evs.getLast? = some (.callSummary (mkSummary sess tl')) ∧
    WFSummary (mkSummary sess tl') ∧
    runSummary none (evs.map eventMsg) = some (mkSummary sess tl') := by
  obtain ⟨evs₀, hE, h0⟩ := run_to_ended sess τ .idle [] tl' evs
    (fun hcon => SState.noConfusion hcon) hrun hnl
  subst hE
  refine ⟨?_, ?_, wfSummary_mkSummary sess tl', runSummary_append_last _ _ _⟩
  · rw [countCS_append, h0]
    rfl
  · exact List.getLast?_concat _

/-- Witness for C7 on a concrete complete session run. -/
theorem C7_single_summary_witness :
    countCS [SEvent.toolCall
        ⟨some .booked, "2025-01-03", "09:00", none, none, "Booked 9am"⟩,
      SEvent.callSummary (mkSummary
        ⟨some "5551234567", some "Ada", "2025-01-02T10:00:00Z", "All done"⟩
        [⟨some .booked, "2025-01-03", "09:00", none, none, "Booked 9am"⟩])]
      = 1 ∧
    ([SEvent.toolCall
        ⟨some .booked, "2025-01-03", "09:00", none, none, "Booked 9am"⟩,
      SEvent.callSummary (mkSummary
        ⟨some "5551234567", some "Ada", "2025-01-02T10:00:00Z", "All done"⟩
        [⟨some .booked, "2025-01-03", "09:00", none, none,
          "Booked 9am"⟩])]).getLast? =
      some (.callSummary (mkSummary
        ⟨some "5551234567", some "Ada", "2025-01-02T10:00:00Z", "All done"⟩
        [⟨some .booked, "2025-01-03", "09:00", none, none, "Booked 9am"⟩])) ∧
    WFSummary (mkSummary
      ⟨some "5551234567", some "Ada", "2025-01-02T10:00:00Z", "All done"⟩
      [⟨some .booked, "2025-01-03", "09:00", none, none, "Booked 9am"⟩]) ∧
    runSummary none (([SEvent.toolCall
        ⟨some .booked, "2025-01-03", "09:00", none, none, "Booked 9am"⟩,
      SEvent.callSummary (mkSummary
        ⟨some "5551234567", some "Ada", "2025-01-02T10:00:00Z", "All done"⟩
        [⟨some .booked, "2025-01-03", "09:00", none, none,
          "Booked 9am"⟩])]).map eventMsg) =
      some (mkSummary
        ⟨some "5551234567", some "Ada", "2025-01-02T10:00:00Z", "All done"⟩
        [⟨some .booked, "2025-01-03", "09:00", none, none, "Booked 9am"⟩]) :=
  C7_single_summary
    ⟨some "5551234567", some "Ada", "2025-01-02T10:00:00Z", "All done"⟩
    [.begin, .identify,
      .runTool ⟨some .booked, "2025-01-03", "09:00", none, none,
        "Booked 9am"⟩,
      .endConv, .summaryDone]
    [⟨some .booked, "2025-01-03", "09:00", none, none, "Booked 9am"⟩]
    [SEvent.toolCall
        ⟨some .booked, "2025-01-03", "09:00", none, none, "Booked 9am"⟩,
      SEvent.callSummary (mkSummary
        ⟨some "5551234567", some "Ada", "2025-01-02T10:00:00Z", "All done"⟩
        [⟨some .booked, "2025-01-03", "09:00", none, none, "Booked 9am"⟩])]
    (by decide) (by decide)

/-! ## Claim theorems about the data-message hooks -/

theorem toolStep_valid {now : String} {st : ToolState} {m : DataMessage}
    {j : JsVal} (ht : m.topic = some "tool_call")
    (hp : m.payload = .parsed j) (hj : j.type_ = some "tool_call") :
    toolStep now st m =
      { nextId := st.nextId + 1
        events := st.events ++ [mkToolEvent now (st.nextId + 1) j] } := by
  unfold toolStep
  rw [ht, hp]
  simp [hj]

theorem toolStep_invalid {now : String} {st : ToolState} {m : DataMessage}
    (h : isToolCallMsg m = false) : toolStep now st m = st := by
  unfold toolStep isToolCallMsg at *
  by_cases ht : m.topic = some "tool_call"
  · rcases hp : m.payload with _ | j
    · simp [ht, hp]
    · rw [ht, hp] at h
      simp at h
      simp [ht, hp, h]
  · simp [ht]

/-- C6: every data message on topic `"tool_call"` whose decoded payload has
type `"tool_call"` appends exactly one event, carrying the payload's
`tool`/`action`/`timestamp` (with the hook's defaults), to the end of the
observed event list; events appear in exactly delivery order; all other
messages append nothing. -/
theorem C6_tool_events_in_order (now : String) (st : ToolState)
    (msgs : List DataMessage) :
    ∃ new : List ToolCallEvent,
      (runTools now st msgs).events = st.events ++ new ∧
      new.map eventFields = (msgs.filter isToolCallMsg).map (msgFields now) := by
  induction msgs generalizing st with
  | nil => exact ⟨[], by simp [runTools], by simp⟩
  | cons m rest ih =>
      have hrun : runTools now st (m :: rest) =
          runTools now (toolStep now st m) rest := rfl
      by_cases hv : isToolCallMsg m
      · obtain ⟨ht, j, hp, hj⟩ :
            m.topic = some "tool_call" ∧
              ∃ j, m.payload = .parsed j ∧ j.type_ = some "tool_call" := by
          unfold isToolCallMsg at hv
          rcases hp : m.payload with _ | j
          · rw [hp] at hv; simp at hv
          · rw [hp] at hv
            simp only [Bool.and_eq_true, decide_eq_true_eq] at hv
            exact ⟨hv.1, j, rfl, hv.2⟩
        obtain ⟨new', hev, hfld⟩ := ih (toolStep now st m)
        refine ⟨mkToolEvent now (st.nextId + 1) j :: new', ?_, ?_⟩
        · rw [hrun, hev, toolStep_valid ht hp hj]
          simp
        · rw [List.filter_cons_of_pos hv]
          simp only [List.map_cons, hfld]
          unfold eventFields msgFields mkToolEvent
          rw [hp]
      · obtain ⟨new', hev, hfld⟩ := ih (toolStep now st m)
        refine ⟨new', ?_, ?_⟩
        · rw [hrun, hev, toolStep_invalid (Bool.eq_false_iff.mpr hv)]
        · rw [List.filter_cons_of_neg (by simpa using hv)]
          exact hfld

/-- C10: a message on topic `"tool_call"` or `"call_summary"` whose payload is
not valid JSON leaves both hooks' states unchanged: no tool-call event is
appended and the exposed summary is not modified. -/
theorem C10_malformed_payload_ignored (now : String) (st : ToolState)
    (ss : Option JsVal) (m : DataMessage)
    (h1 : m.topic = some "tool_call" ∨ m.topic = some "call_summary")
    (h2 : m.payload = .malformed) :
    toolStep now st m = st ∧ summaryStep ss m = ss := by
  constructor
  · unfold toolStep
    by_cases ht : m.topic = some "tool_call"
    · simp [ht, h2]
    · simp [ht]
  · unfold summaryStep
    by_cases ht : m.topic = some "call_summary"
    · simp [ht, h2]
    · simp [ht]

/-- Witness for C10 on both topics, concretely. -/
theorem C10_malformed_payload_ignored_witness :
    (toolStep "T" ⟨2, [⟨"tc-1", "a", "b", "c"⟩]⟩
        ⟨some "tool_call", .malformed⟩ = ⟨2, [⟨"tc-1", "a", "b", "c"⟩]⟩ ∧
      summaryStep (some ⟨some "x", none, none, none, none, none, none, none⟩)
        ⟨some "tool_call", .malformed⟩ =
        some ⟨some "x", none, none, none, none, none, none, none⟩) ∧
    (toolStep "T" ⟨2, [⟨"tc-1", "a", "b", "c"⟩]⟩
        ⟨some "call_summary", .malformed⟩ = ⟨2, [⟨"tc-1", "a", "b", "c"⟩]⟩ ∧
      summaryStep (some ⟨some "x", none, none, none, none, none, none, none⟩)
        ⟨some "call_summary", .malformed⟩ =
        some ⟨some "x", none, none, none, none, none, none, none⟩) :=
  ⟨C10_malformed_payload_ignored "T" ⟨2, [⟨"tc-1", "a", "b", "c"⟩]⟩
      (some ⟨some "x", none, none, none, none, none, none, none⟩)
      ⟨some "tool_call", .malformed⟩ (Or.inl rfl) rfl,
    C10_malformed_payload_ignored "T" ⟨2, [⟨"tc-1", "a", "b", "c"⟩]⟩
      (some ⟨some "x", none, none, none, none, none, none, none⟩)
      ⟨some "call_summary", .malformed⟩ (Or.inr rfl) rfl⟩

end SuperBryn
